import Mathlib

/-!
# Verification of the mellymell pitch-analysis core

Shallow embedding of `src/mellymell/pitch.py`, `src/mellymell/segment.py` and
the smoothing loop of `scripts/live_tuner.py`, with theorems checking the
natural-language specification against the code.

Conventions:
* Python floats are modelled by exact numbers (`ℚ` for the purely rational
  YIN arithmetic, `ℝ` for the logarithmic note mapping).
* Python exceptions (`ValueError` from `np.zeros`/`np.argmin`, `IndexError`
  from array access) are modelled by `Option`, `none` meaning "raises".
* Python 3 `round` is round-half-to-even; `int(...)` truncates toward zero;
  `//` and `%` on integers are floor division, which for the positive
  divisor 12 used here coincides with Euclidean division (`Int.ediv/emod`).
-/

namespace MellyMell

/-- Python `int(...)` applied to a real-like value: truncation toward zero. -/
def pyTrunc (q : ℚ) : ℤ := if 0 ≤ q then ⌊q⌋ else ⌈q⌉

/-- Python 3 `round(x)`: round half to even (banker's rounding). -/
def pyRound (q : ℚ) : ℤ :=
  if q = (⌊q⌋ : ℚ) + 1/2 then (if ⌊q⌋ % 2 = 0 then ⌊q⌋ else ⌊q⌋ + 1) else round q

/-- Model of `PitchResult` from pitch.py (`frequency`, `confidence`), rational model. -/
structure PitchResult where
  frequency : ℚ
  confidence : ℚ
deriving DecidableEq, Repr

/-- The `1e-12` guard constant of `yin` (exact-rational model). -/
def yinEps : ℚ := 1/10^12

/-- Difference function `d(τ) = Σ_i (x[i] - x[i+τ])²` over the valid overlap
(pitch.py lines 63-65). -/
def dval (x : List ℚ) (τ : ℕ) : ℚ :=
  ((List.range (x.length - τ)).map (fun i => (x.getD i 0 - x.getD (i + τ) 0) ^ 2)).sum

/-- Running sum `Σ_{j=1}^{τ} d(j)` used by the CMND normalisation. -/
def runsum (x : List ℚ) (τ : ℕ) : ℚ :=
  ((List.range τ).map (fun j => dval x (j + 1))).sum

/-- Cumulative mean normalised difference: `cmnd[0] = 1`,
`cmnd[τ] = d[τ]·τ / (Σ_{j≤τ} d[j] + 1e-12)` (pitch.py lines 68-73). -/
def cmndf (x : List ℚ) (τ : ℕ) : ℚ :=
  if τ = 0 then 1 else dval x τ * τ / (runsum x τ + yinEps)

/-- Index of the first minimum of a list (`np.argmin`); 0 on the empty list,
but callers guard emptiness. -/
def argminFirst (l : List ℚ) : ℕ :=
  (List.range l.length).foldl (fun acc i => if l.getD i 0 < l.getD acc 0 then i else acc) 0

/-- Model of `yin(frame, sr, fmin, fmax, threshold)` from pitch.py lines 50-99.

`none` models a raised exception:
* `maxTau ≤ -2` (frame of length 0): `np.zeros(maxTau+1)` gets a negative
  size and raises `ValueError`;
* `maxTau = -1` (frame of length 1): `cmnd` is the empty array and the store
  `cmnd[0] = 1.0` raises `IndexError`;
* no lag scanned and the fallback slice `cmnd[minTau:maxTau]` empty:
  `np.argmin` of an empty sequence raises `ValueError`;
* confidence lookup index `round(bestTau)` outside `[-len(cmnd), len(cmnd))`:
  `IndexError` (a negative index within range wraps around, as in numpy). -/
def yin (frame : List ℚ) (sr : ℤ) (fmin fmax thr : ℚ) : Option PitchResult :=
  let N := frame.length
  let mean : ℚ := if N = 0 then 0 else frame.sum / N
  let x := frame.map (fun v => v - mean)
  let maxTau : ℤ := min (pyTrunc ((sr : ℚ) / fmin)) ((N : ℤ) - 2)
  let minTau : ℤ := max 2 (pyTrunc ((sr : ℚ) / fmax))
  if maxTau < 0 then none
  else
    let M : ℕ := (maxTau + 1).toNat
    let mt : ℕ := minTau.toNat
    let Mt : ℕ := maxTau.toNat
    let cm : ℕ → ℚ := cmndf x
    let found : Option ℕ := (List.range' mt (Mt - mt)).find? (fun τ => decide (cm τ < thr))
    let best0 : ℚ :=
      match found with
      | some τ =>
          if 1 ≤ τ ∧ τ < Mt then
            let a := cm (τ - 1)
            let b := cm τ
            let c := cm (τ + 1)
            let denom := 2 * (2 * b - a - c)
            if yinEps < |denom| then (τ : ℚ) + (c - a) / denom else (τ : ℚ)
          else (τ : ℚ)
      | none => 0
    let bestRes : Option ℚ :=
      if best0 = 0 then
        if Mt ≤ mt then none
        else some ((argminFirst ((List.range' mt (Mt - mt)).map cm) : ℚ) + (mt : ℚ))
      else some best0
    match bestRes with
    | none => none
    | some best =>
      let idx : ℤ := pyRound best
      let cval : Option ℚ :=
        if 0 ≤ idx ∧ idx < (M : ℤ) then some (cm idx.toNat)
        else if -(M : ℤ) ≤ idx ∧ idx < 0 then some (cm (M - (-idx).toNat))
        else none
      match cval with
      | none => none
      | some cv => some ⟨(sr : ℚ) / best, max 0 (min 1 ((1/2 - cv) / (1/2)))⟩

/-- C1 (amended): for every input frame shorter than 2 samples the pitch
estimator raises an exception (modelled as `none`) instead of returning the
degenerate `PitchResult` 0/0: `np.zeros` receives a negative size for the
empty frame, and the store `cmnd[0] = 1.0` is out of bounds for a one-sample
frame. The claimed degenerate result and no-exception guarantee do not hold
(see the counterexample, which also covers the `maxLag < minLag` case). -/
theorem yin_short_frame_raises (frame : List ℚ) (sr : ℤ) (fmin fmax thr : ℚ)
    (h : frame.length < 2) : yin frame sr fmin fmax thr = none := by
  have h2 : min (pyTrunc ((sr : ℚ) / fmin)) ((frame.length : ℤ) - 2) < 0 :=
    lt_of_le_of_lt (min_le_right _ _) (by omega)
  simp only [yin]
  rw [if_pos h2]

/-- C7 (amended): whenever the estimator produces a result, the returned
confidence is the explicitly clamped value, hence lies in `[0, 1]`; the
claimed guarantee `frequency ≥ 0` fails, because parabolic interpolation can
refine the chosen lag to a negative value (see the counterexample). -/
theorem yin_confidence_clamped (frame : List ℚ) (sr : ℤ) (fmin fmax thr : ℚ)
    (r : PitchResult) (h : yin frame sr fmin fmax thr = some r) :
    0 ≤ r.confidence ∧ r.confidence ≤ 1 := by
  simp only [yin] at h
  split at h
  · exact Option.noConfusion h
  · split at h
    · exact Option.noConfusion h
    · split at h <;>
        first
          | exact Option.noConfusion h
          | (cases h; exact ⟨le_max_left _ _, max_le (by norm_num) (min_le_left _ _)⟩)

end MellyMell

namespace MellyMell

set_option maxRecDepth 4000 in
/-- C1 (counterexample): a one-sample frame, and a 20-sample frame whose
`fMin = 300 ≥ fMax = 200` makes `maxLag < minLag`, both raise (modelled as
`none`) rather than returning the degenerate `PitchResult` with
`frequency = 0` and `confidence = 0` that the claim promises. -/
theorem yin_short_frame_counterexample :
    yin [0] 48000 50 2000 (1/10) = none ∧
      yin (List.replicate 20 0) 100 300 200 (1/10) = none := by
  constructor
  · with_unfolding_all decide
  · with_unfolding_all decide

set_option maxRecDepth 4000 in
/-- C1 (witness): the amended statement applied to a concrete one-sample
frame. -/
theorem yin_short_frame_raises_witness :
    ([(5 : ℚ)]).length < 2 ∧ yin [5] 48000 50 2000 (1/10) = none :=
  ⟨by decide, yin_short_frame_raises [5] 48000 50 2000 (1/10) (by decide)⟩

set_option maxRecDepth 4000 in
/-- C7 (counterexample): a 5-sample frame satisfying all the claim's
preconditions (`sr = 100 > 0`, `fMin = 25 < fMax = 50`, length `5 ≥ 2`,
`threshold = 4/5 ∈ (0,1)`) on which `yin` produces a result whose frequency
is negative: the threshold scan accepts lag 2 and parabolic interpolation
refines it below zero, so `frequency = sr / refinedLag < 0`. -/
theorem yin_negative_frequency_counterexample :
    yin [-2/1000000, -1/1000000, -1/1000000, -2/1000000, 0] 100 25 50 (4/5)
        = some ⟨-600/13, 0⟩ ∧ (-600/13 : ℚ) < 0 := by
  constructor
  · with_unfolding_all decide
  · norm_num

set_option maxRecDepth 4000 in
/-- C7 (witness): the amended confidence bound applied to a concrete frame on
which the estimator produces a result. -/
theorem yin_confidence_clamped_witness :
    0 ≤ (PitchResult.mk (-600/13) 0).confidence ∧
      (PitchResult.mk (-600/13) 0).confidence ≤ 1 :=
  yin_confidence_clamped [-2/1000000, -1/1000000, -1/1000000, -2/1000000, 0] 100 25 50 (4/5)
    ⟨-600/13, 0⟩ (by with_unfolding_all decide)

end MellyMell

namespace MellyMell

open scoped Classical

noncomputable section

/-- The fixed chromatic table `NOTE_NAMES` (pitch.py line 10). -/
def NOTE_NAMES : List String :=
  ["C", "C#", "D", "D#", "E", "F"] ++ ["F#", "G", "G#", "A", "A#", "B"]

/-- Python 3 `round` on a real value: round half to even. -/
def pyRoundR (x : ℝ) : ℤ :=
  if x = (⌊x⌋ : ℝ) + 1/2 then (if ⌊x⌋ % 2 = 0 then ⌊x⌋ else ⌊x⌋ + 1) else round x

/-- Model of `hz_to_midi` (pitch.py line 13): `69 + 12·log2(f/a4)`. The real model's
`logb` is total; the `math.log2` domain error on a non-positive argument is
captured by `hz_to_midi_checked` below. -/
def hz_to_midi (f : ℝ) (a4 : ℝ) : ℝ := 69 + 12 * Real.logb 2 (f / a4)

/-- Python `math.log2` raises `ValueError` when its argument is not positive; this
checked variant of `hz_to_midi` returns `none` exactly there. -/
def hz_to_midi_checked (f : ℝ) (a4 : ℝ) : Option ℝ :=
  if 0 < f / a4 then some (hz_to_midi f a4) else none

/-- Model of `midi_to_hz` (pitch.py line 17): `a4 · 2^((m-69)/12)`. -/
def midi_to_hz (m : ℝ) (a4 : ℝ) : ℝ := a4 * (2 : ℝ) ^ ((m - 69) / 12)

/-- Model of `midi_to_note` (pitch.py line 21): round half-to-even, chromatic name by
`% 12`, octave by `// 12 - 1`; Python's floor `//` and `%` agree with
`Int.ediv`/`Int.emod` (Lean's `/`, `%`) for the positive divisor 12. -/
def midi_to_note (m : ℝ) : String × ℤ :=
  (NOTE_NAMES.getD ((pyRoundR m) % 12).toNat "", (pyRoundR m) / 12 - 1)

/-- Model of `hz_to_note` (pitch.py line 28): name, octave and cents deviation
`(m - round(m))·100`. -/
def hz_to_note (f : ℝ) (a4 : ℝ) : String × ℤ × ℝ :=
  let m := hz_to_midi f a4
  ((midi_to_note m).1, (midi_to_note m).2, (m - (pyRoundR m : ℝ)) * 100)

/-- Model of `note_to_hz` (pitch.py line 38). `List.indexOf` models `list.index`; all
claims instantiate it at names of the fixed table, where the two agree. -/
def note_to_hz (name : String) (octave : ℤ) (a4 : ℝ) : ℝ :=
  midi_to_hz (((octave + 1) * 12 + (NOTE_NAMES.indexOf name : ℤ) : ℤ) : ℝ) a4

/-- Model of `NoteSegment` (segment.py lines 11-17). -/
structure NoteSegment where
  start_s : ℝ
  end_s : ℝ
  note : String
  median_cents : ℝ
  mean_confidence : ℝ

/-- Sorted insertion, helper for the sort inside `np.median`. -/
def insertSorted (v : ℝ) : List ℝ → List ℝ
  | [] => [v]
  | y :: ys => if v ≤ y then v :: y :: ys else y :: insertSorted v ys

/-- The sort inside `np.median` (any comparison sort yields the same sorted
list of a given multiset of reals). -/
def sortR (l : List ℝ) : List ℝ := l.foldr insertSorted []

/-- Model of `np.median`: middle element of the sorted data for odd length, mean of
the two middle elements for even length. Junk value 0 on the empty list,
which every call site guards against. -/
def npMedian (l : List ℝ) : ℝ :=
  let s := sortR l
  let n := s.length
  if n % 2 = 1 then s.getD (n / 2) 0
  else (s.getD (n / 2 - 1) 0 + s.getD (n / 2) 0) / 2

/-- Model of `np.mean(l) if l else 0.0` (segment.py line 59). -/
def listMean (l : List ℝ) : ℝ := if l = [] then 0 else l.sum / l.length

/-- Frame validity test of the segmenter (segment.py line 69):
`(f > 0) and (c >= conf_threshold)`. -/
def segValid (f c thr : ℝ) : Prop := 0 < f ∧ thr ≤ c

/-- The note label `f"{name}{octave}"` used by the segmenter
(segment.py line 78). -/
def segLabel (f a4 : ℝ) : String :=
  (hz_to_note f a4).1 ++ toString (hz_to_note f a4).2.1

/-- Loop state of `segment_notes`: accumulated output plus the `cur_*` and
`last_time` variables. -/
structure SegState where
  segments : List NoteSegment
  curNote : Option String
  curStart : Option ℝ
  curCents : List ℝ
  curConfs : List ℝ
  lastTime : Option ℝ

def initSegState : SegState := ⟨[], none, none, [], [], none⟩

/-- Model of `close_segment(end_time)` (segment.py lines 47-66): emit a segment when
the duration reaches `min_seg_dur` and at least one frame contributed, then
reset the `cur_*` state; the early `return` when no segment is open leaves
everything unchanged. -/
def closeSegment (minSegDur : ℝ) (s : SegState) (endTime : ℝ) : SegState :=
  match s.curNote, s.curStart with
  | some note, some start =>
      { segments :=
          if minSegDur ≤ endTime - start ∧ 0 < s.curCents.length then
            s.segments ++ [⟨start, endTime, note, npMedian s.curCents, listMean s.curConfs⟩]
          else s.segments
        curNote := none, curStart := none, curCents := [], curConfs := [],
        lastTime := s.lastTime }
  | _, _ => s

/-- One iteration of the `segment_notes` loop over `(t, f, c)`
(segment.py lines 68-95). Note that `last_time` is updated by *every*
frame, valid or not. -/
def segStep (a4 minSegDur gap confThr : ℝ) (s : SegState) (fr : ℝ × ℝ × ℝ) : SegState :=
  let t := fr.1
  let f := fr.2.1
  let c := fr.2.2
  if segValid f c confThr then
    let lbl := segLabel f a4
    let cents := (hz_to_note f a4).2.2
    match s.curNote with
    | none =>
        { s with curNote := some lbl, curStart := some t,
                 curCents := [cents], curConfs := [c], lastTime := some t }
    | some n =>
        if lbl ≠ n then
          let s' := closeSegment minSegDur s (s.lastTime.getD t)
          { s' with curNote := some lbl, curStart := some t,
                    curCents := [cents], curConfs := [c], lastTime := some t }
        else
          { s with curCents := s.curCents ++ [cents], curConfs := s.curConfs ++ [c],
                   lastTime := some t }
  else
    match s.curNote, s.lastTime with
    | some _, some lt =>
        if gap < t - lt then { closeSegment minSegDur s lt with lastTime := some t }
        else { s with lastTime := some t }
    | _, _ => { s with lastTime := some t }

/-- Model of `segment_notes` (segment.py lines 20-101): fold of `segStep` over the
frames, then the trailing close at the final `last_time`. -/
def segment_notes (frames : List (ℝ × ℝ × ℝ)) (a4 minSegDur gap confThr : ℝ) :
    List NoteSegment :=
  let s := frames.foldl (segStep a4 minSegDur gap confThr) initSegState
  match s.curNote, s.curStart, s.lastTime with
  | some _, some _, some lt => (closeSegment minSegDur s lt).segments
  | _, _, _ => s.segments

/-- Acceptance gate of the live loop (live_tuner.py line 92):
`np.isfinite(f) and f > 0 and conf >= args.conf`; finiteness is always true
in the real model. -/
def liveAccept (f c thr : ℝ) : Prop := 0 < f ∧ thr ≤ c

/-- Smoothing state of the live loop: the frequency deque and the last
shown note label. -/
structure LiveState where
  hist : List ℝ
  shown : Option String

/-- Model of a `deque(maxlen=max(1, median))` push: append, evicting the oldest
entries beyond the capacity. -/
def pushHist (w : ℕ) (hist : List ℝ) (f : ℝ) : List ℝ :=
  let h := hist ++ [f]
  h.drop (h.length - max 1 w)

/-- Model of `f"{octave:02d}"`: zero-pad the octave to two characters. -/
def octFmt (o : ℤ) : String := if 0 ≤ o ∧ o < 10 then "0" ++ toString o else toString o

/-- The displayed note label `f"{name}{octave:02d}"` (live_tuner.py
line 107). -/
def noteKey (f a4 : ℝ) : String :=
  (hz_to_note f a4).1 ++ octFmt (hz_to_note f a4).2.1

/-- Model of `shown_note[:-2]` (live_tuner.py line 112). -/
def parseName (s : String) : String := s.dropRight 2

/-- Model of `int(shown_note[-2:])` (live_tuner.py line 113), junk 0 if unparsable
(the loop only ever stores two-digit octaves there). -/
def parseOct (s : String) : ℤ := (String.toInt? (s.takeRight 2)).getD 0

/-- Model of `1200.0 * np.log2(f_med / f_prev)` (live_tuner.py line 117): cents
offset of the median frequency from the previous shown note's center. -/
def centsDelta (fmed fprev : ℝ) : ℝ := 1200 * Real.logb 2 (fmed / fprev)

/-- Output of one live iteration: the "(no pitch)" line or the display
tuple. -/
inductive LiveOut where
  | noPitch : LiveOut
  | display (fmed : ℝ) (note : String) (cents : ℝ) (conf : ℝ) : LiveOut

/-- Median of the updated history (live_tuner.py line 105); the guard
`if len > 0 else f` is kept although the freshly pushed history is never
empty. -/
def liveFmed (w : ℕ) (s : LiveState) (f : ℝ) : ℝ :=
  let h := pushHist w s.hist f
  if 0 < h.length then npMedian h else f

/-- The candidate label computed from the median frequency. -/
def liveCand (a4 : ℝ) (w : ℕ) (s : LiveState) (f : ℝ) : String :=
  noteKey (liveFmed w s f) a4

/-- One iteration of the live display loop (live_tuner.py lines 85-128):
gate, median smoothing, hysteresis against the previous shown note's
center, state update and display output. -/
def liveStep (a4 confThr hys : ℝ) (w : ℕ) (s : LiveState) (f conf : ℝ) :
    LiveState × LiveOut :=
  if liveAccept f conf confThr then
    let hist := pushHist w s.hist f
    let fmed := liveFmed w s f
    let cand := liveCand a4 w s f
    let shown :=
      match s.shown with
      | some sn =>
          if cand ≠ sn then
            if |centsDelta fmed (note_to_hz (parseName sn) (parseOct sn) a4)| < hys
            then sn else cand
          else cand
      | none => cand
    (⟨hist, some shown⟩, LiveOut.display fmed shown (hz_to_note fmed a4).2.2 conf)
  else (s, LiveOut.noPitch)

end

end MellyMell

namespace MellyMell

theorem hz_to_note_cents (f a4 : ℝ) :
    (hz_to_note f a4).2.2 = (hz_to_midi f a4 - (pyRoundR (hz_to_midi f a4) : ℝ)) * 100 := rfl

theorem hz_to_note_name (f a4 : ℝ) :
    (hz_to_note f a4).1 = (midi_to_note (hz_to_midi f a4)).1 := rfl

theorem hz_to_note_octave (f a4 : ℝ) :
    (hz_to_note f a4).2.1 = (midi_to_note (hz_to_midi f a4)).2 := rfl

/-- Lemma: `pyRoundR` fixes integers. -/
theorem pyRoundR_intCast (k : ℤ) : pyRoundR (k : ℝ) = k := by
  unfold pyRoundR
  rw [Int.floor_intCast, if_neg, round_intCast]
  intro h
  have : ((0 : ℝ)) = 1/2 := by linarith [h]
  norm_num at this

/-- Lemma: `pyRoundR` moves a value by at most `1/2`. -/
theorem pyRoundR_dist (x : ℝ) : |x - (pyRoundR x : ℝ)| ≤ 1/2 := by
  unfold pyRoundR
  split
  · rename_i h
    split <;> (rw [abs_le]; constructor <;> push_cast <;> linarith [h])
  · exact abs_sub_round x

/-- In exact real arithmetic `hz_to_midi` inverts `midi_to_hz`. -/
theorem hz_to_midi_roundtrip (m a4 : ℝ) (ha4 : 0 < a4) :
    hz_to_midi (midi_to_hz m a4) a4 = m := by
  unfold hz_to_midi midi_to_hz
  rw [mul_div_cancel_left₀ _ (ne_of_gt ha4),
      Real.logb_rpow (by norm_num) (by norm_num)]
  ring

/-- C6: for every name of the fixed 12-entry chromatic table, every integer
octave and every positive tuning `a4`, the round trip
`hz_to_note (note_to_hz name octave a4) a4` reproduces `(name, octave)`
with cents exactly 0 (the real model's version of "within floating
tolerance"). -/
theorem note_roundtrip (name : String) (octave : ℤ) (a4 : ℝ)
    (hname : name ∈ NOTE_NAMES) (ha4 : 0 < a4) :
    hz_to_note (note_to_hz name octave a4) a4 = (name, octave, 0) := by
  have hlt : NOTE_NAMES.indexOf name < NOTE_NAMES.length :=
    List.indexOf_lt_length.mpr hname
  have hget : NOTE_NAMES.getD (NOTE_NAMES.indexOf name) "" = name := by
    rw [List.getD_eq_getElem?_getD, List.getElem?_eq_getElem hlt, Option.getD_some,
        List.getElem_indexOf hlt]
  have h12 : (NOTE_NAMES.indexOf name : ℤ) < 12 := by
    have hlen : NOTE_NAMES.length = 12 := rfl
    rw [hlen] at hlt
    exact_mod_cast hlt
  have h0 : (0 : ℤ) ≤ (NOTE_NAMES.indexOf name : ℤ) := Int.natCast_nonneg _
  have hmid : hz_to_midi (note_to_hz name octave a4) a4
      = (((octave + 1) * 12 + (NOTE_NAMES.indexOf name : ℤ) : ℤ) : ℝ) :=
    hz_to_midi_roundtrip _ _ ha4
  have hmod : ((octave + 1) * 12 + (NOTE_NAMES.indexOf name : ℤ)) % 12
      = (NOTE_NAMES.indexOf name : ℤ) := by omega
  have hdiv : ((octave + 1) * 12 + (NOTE_NAMES.indexOf name : ℤ)) / 12 - 1 = octave := by
    omega
  rw [Prod.ext_iff, Prod.ext_iff]
  refine ⟨?_, ?_, ?_⟩
  · rw [hz_to_note_name, hmid]
    simp only [midi_to_note, pyRoundR_intCast]
    rw [hmod, Int.toNat_natCast, hget]
  · rw [hz_to_note_octave, hmid]
    simp only [midi_to_note, pyRoundR_intCast]
    rw [hdiv]
  · rw [hz_to_note_cents, hmid, pyRoundR_intCast]
    ring

/-- C6 (witness): the round trip at `("A", 4)` with `a4 = 440`. -/
theorem note_roundtrip_witness :
    hz_to_note (note_to_hz "A" 4 440) 440 = ("A", 4, 0) :=
  note_roundtrip "A" 4 440 (by decide) (by norm_num)

end MellyMell

namespace MellyMell

/-- C5 (amended): for every positive frequency and tuning, the cents
deviation returned by `hz_to_note` lies in the closed interval
`[-50, 50]`: Python's half-to-even rounding makes both endpoints
attainable, so the claimed half-open range `(-50, 50]` is wrong (see the
counterexample, where an exact half-way frequency resolves to `-50`). -/
theorem cents_range (f a4 : ℝ) (hf : 0 < f) (ha4 : 0 < a4) :
    -50 ≤ (hz_to_note f a4).2.2 ∧ (hz_to_note f a4).2.2 ≤ 50 := by
  rw [hz_to_note_cents]
  have h := pyRoundR_dist (hz_to_midi f a4)
  rw [abs_le] at h
  constructor <;> linarith [h.1, h.2]

/-- C5 (witness): the amended bounds at `f = a4 = 440`. -/
theorem cents_range_witness :
    -50 ≤ (hz_to_note 440 440).2.2 ∧ (hz_to_note 440 440).2.2 ≤ 50 :=
  cents_range 440 440 (by norm_num) (by norm_num)

/-- C5 (counterexample): the frequency `440·2^(-5/8)` lies exactly half way
between the semitone centers at midi 61 and 62 (midi value 61.5); Python's
round-half-to-even sends it to 62, so `hz_to_note` returns cents `= -50`,
refuting both "cents is never `-50`" and "half-way frequencies always
resolve to `+50`". -/
theorem cents_neg_fifty_counterexample :
    0 < 440 * (2 : ℝ) ^ (-(5 : ℝ)/8) ∧
      (hz_to_note (440 * (2 : ℝ) ^ (-(5 : ℝ)/8)) 440).2.2 = -50 := by
  refine ⟨by positivity, ?_⟩
  have hm5 : hz_to_midi (440 * (2 : ℝ) ^ (-(5 : ℝ)/8)) 440 = 123/2 := by
    unfold hz_to_midi
    rw [mul_div_cancel_left₀ _ (by norm_num : (440 : ℝ) ≠ 0),
        Real.logb_rpow (by norm_num) (by norm_num)]
    norm_num
  have hfl : ⌊(123/2 : ℝ)⌋ = 61 := by
    rw [Int.floor_eq_iff] <;> norm_num
  have hround : pyRoundR (123/2 : ℝ) = 62 := by
    unfold pyRoundR
    rw [hfl, if_pos (by norm_num), if_neg (by decide)]
    norm_num
  rw [hz_to_note_cents, hm5, hround]
  norm_num

/-- C9: `hz_to_midi` (and hence `hz_to_note`, which calls it first) raises
the `math.log2` domain error exactly on non-positive frequencies, and the
validity gates of both internal callers — the segmenter's
`(f > 0) and (c >= conf_threshold)` and the live loop's
`isfinite(f) and f > 0 and conf >= thr` — guarantee a positive frequency,
so the error branch is unreachable from them: on positive input the checked
conversion succeeds with the unchecked value. -/
theorem hz_to_midi_requires_positive :
    (∀ f a4 : ℝ, 0 < a4 → f ≤ 0 → hz_to_midi_checked f a4 = none) ∧
    (∀ f c thr : ℝ, segValid f c thr → 0 < f) ∧
    (∀ f c thr : ℝ, liveAccept f c thr → 0 < f) ∧
    (∀ f a4 : ℝ, 0 < f → 0 < a4 → hz_to_midi_checked f a4 = some (hz_to_midi f a4)) := by
  refine ⟨?_, fun f c thr h => h.1, fun f c thr h => h.1, ?_⟩
  · intro f a4 ha4 hf
    unfold hz_to_midi_checked
    rw [if_neg]
    intro hpos
    have hle : f / a4 ≤ 0 := div_nonpos_of_nonpos_of_nonneg hf ha4.le
    linarith
  · intro f a4 hf ha4
    unfold hz_to_midi_checked
    rw [if_pos (div_pos hf ha4)]

/-- C9 (witness): the domain guard at concrete inputs on both sides. -/
theorem hz_to_midi_requires_positive_witness :
    hz_to_midi_checked (-1) 440 = none ∧
      hz_to_midi_checked 440 440 = some (hz_to_midi 440 440) ∧
      (segValid 440 1 (1/2) → (0 : ℝ) < 440) :=
  ⟨hz_to_midi_requires_positive.1 (-1) 440 (by norm_num) (by norm_num),
   hz_to_midi_requires_positive.2.2.2 440 440 (by norm_num) (by norm_num),
   fun h => hz_to_midi_requires_positive.2.1 440 1 (1/2) h⟩

end MellyMell

namespace MellyMell

theorem hz_to_midi_rpow (a4 e : ℝ) (ha : a4 ≠ 0) :
    hz_to_midi (a4 * (2 : ℝ) ^ e) a4 = 69 + 12 * e := by
  unfold hz_to_midi
  rw [mul_div_cancel_left₀ _ ha, Real.logb_rpow (by norm_num) (by norm_num)]

theorem hz_to_note_440 : hz_to_note 440 440 = ("A", 4, 0) := by
  have hm : hz_to_midi 440 440 = ((69 : ℤ) : ℝ) := by
    unfold hz_to_midi
    rw [div_self (by norm_num : (440 : ℝ) ≠ 0), Real.logb_one]
    norm_num
  rw [Prod.ext_iff, Prod.ext_iff]
  refine ⟨?_, ?_, ?_⟩
  · rw [hz_to_note_name, hm]
    simp only [midi_to_note, pyRoundR_intCast]
    rfl
  · rw [hz_to_note_octave, hm]
    simp only [midi_to_note, pyRoundR_intCast]
    rfl
  · rw [hz_to_note_cents, hm, pyRoundR_intCast]
    ring

theorem segLabel_440 : segLabel 440 440 = "A4" := by
  unfold segLabel
  rw [hz_to_note_440]
  with_unfolding_all decide

end MellyMell

namespace MellyMell

/-- A valid frame with no open segment opens one at this frame. -/
theorem segStep_open (a4 m g thr : ℝ) (s : SegState) (t f c : ℝ)
    (hv : segValid f c thr) (hn : s.curNote = none) :
    segStep a4 m g thr s (t, f, c)
      = { s with curNote := some (segLabel f a4), curStart := some t,
                 curCents := [(hz_to_note f a4).2.2], curConfs := [c],
                 lastTime := some t } := by
  obtain ⟨segs, cn, cst, cc, cf, lt⟩ := s
  cases hn
  simp only [segStep, if_pos hv]

/-- A valid frame carrying the same note label as the open segment appends
its cents and confidence and advances `last_time`. -/
theorem segStep_same (a4 m g thr : ℝ) (s : SegState) (t f c : ℝ) (n : String)
    (hv : segValid f c thr) (hn : s.curNote = some n) (hlbl : segLabel f a4 = n) :
    segStep a4 m g thr s (t, f, c)
      = { s with curCents := s.curCents ++ [(hz_to_note f a4).2.2],
                 curConfs := s.curConfs ++ [c], lastTime := some t } := by
  obtain ⟨segs, cn, cst, cc, cf, lt⟩ := s
  cases hn
  simp only [segStep, if_pos hv, hlbl]
  rw [if_neg (by simp)]

/-- A valid frame with a different label closes the open segment at
`last_time` and opens a new one at this frame. -/
theorem segStep_change (a4 m g thr : ℝ) (s : SegState) (t f c : ℝ) (n : String)
    (hv : segValid f c thr) (hn : s.curNote = some n) (hlbl : segLabel f a4 ≠ n) :
    segStep a4 m g thr s (t, f, c)
      = { closeSegment m s (s.lastTime.getD t) with
            curNote := some (segLabel f a4), curStart := some t,
            curCents := [(hz_to_note f a4).2.2], curConfs := [c],
            lastTime := some t } := by
  obtain ⟨segs, cn, cst, cc, cf, lt⟩ := s
  cases hn
  simp only [segStep, if_pos hv]
  rw [if_pos hlbl]

/-- An invalid frame arriving within `gap` of the previous frame (or with no
open segment, or before any frame) only advances `last_time`. -/
theorem segStep_invalid_keep (a4 m g thr : ℝ) (s : SegState) (t f c : ℝ)
    (hv : ¬ segValid f c thr)
    (hng : s.curNote = none ∨ s.lastTime = none ∨
           ∀ lt, s.lastTime = some lt → t - lt ≤ g) :
    segStep a4 m g thr s (t, f, c) = { s with lastTime := some t } := by
  obtain ⟨segs, cn, cst, cc, cf, lt⟩ := s
  simp only [segStep, if_neg hv]
  match cn, lt with
  | none, _ => rfl
  | some n, none => rfl
  | some n, some lt0 =>
      rcases hng with h | h | h
      · exact absurd h (by simp)
      · exact absurd h (by simp)
      · exact if_neg (by simpa using not_lt.mpr (h lt0 rfl))

/-- An invalid frame arriving more than `gap` after the previous frame
closes the open segment at that previous frame's timestamp. -/
theorem segStep_invalid_close (a4 m g thr : ℝ) (s : SegState) (t f c lt : ℝ)
    (n : String) (hv : ¬ segValid f c thr)
    (hn : s.curNote = some n) (hl : s.lastTime = some lt) (hg : g < t - lt) :
    segStep a4 m g thr s (t, f, c) = { closeSegment m s lt with lastTime := some t } := by
  obtain ⟨segs, cn, cst, cc, cf, lt'⟩ := s
  cases hn
  cases hl
  simp only [segStep, if_neg hv]
  exact if_pos hg

end MellyMell

namespace MellyMell

theorem cents_440 : (hz_to_note 440 440).2.2 = 0 := by rw [hz_to_note_440]

/-- C2 (counterexample): frames `(0, 440 Hz, conf 1)`, then invalid frames
at `t = 1` and `t = 2`, with `gap = 3/2` and `minSegDur = 1`. The last
*valid* frame is at `t = 0`, so the claim demands a close at time 0 (and
then no segment at all, since the duration 0 is below `minSegDur`); the code
instead keeps `last_time` on the invalid frames (each within `gap` of its
immediate predecessor) and closes the segment at the *invalid* timestamp 2,
emitting `[0, 2]`. -/
theorem seg_end_time_counterexample :
    (segment_notes [(0, 440, 1), (1, 0, 0), (2, 0, 0)] 440 1 (3/2) (1/2)).map
        (fun sg => (sg.start_s, sg.end_s)) = [(0, 2)] := by
  have hv440 : segValid (440 : ℝ) 1 (1/2) := ⟨by norm_num, by norm_num⟩
  have hv0 : ¬ segValid (0 : ℝ) 0 (1/2) := by
    intro h
    exact absurd h.1 (by norm_num)
  have e1 : segStep 440 1 (3/2) (1/2) initSegState (0, 440, 1)
      = ⟨[], some "A4", some 0, [0], [1], some 0⟩ := by
    rw [segStep_open 440 1 (3/2) (1/2) initSegState 0 440 1 hv440 rfl,
        segLabel_440, cents_440]
    rfl
  have e2 : segStep 440 1 (3/2) (1/2) ⟨[], some "A4", some 0, [0], [1], some 0⟩ (1, 0, 0)
      = ⟨[], some "A4", some 0, [0], [1], some 1⟩ := by
    rw [segStep_invalid_keep 440 1 (3/2) (1/2) _ 1 0 0 hv0
        (Or.inr (Or.inr (fun lt h => by cases h; norm_num)))]
  have e3 : segStep 440 1 (3/2) (1/2) ⟨[], some "A4", some 0, [0], [1], some 1⟩ (2, 0, 0)
      = ⟨[], some "A4", some 0, [0], [1], some 2⟩ := by
    rw [segStep_invalid_keep 440 1 (3/2) (1/2) _ 2 0 0 hv0
        (Or.inr (Or.inr (fun lt h => by cases h; norm_num)))]
  unfold segment_notes
  rw [List.foldl_cons, e1, List.foldl_cons, e2, List.foldl_cons, e3, List.foldl_nil]
  norm_num [closeSegment]

end MellyMell

namespace MellyMell

/-- Characterisation of `close_segment` on an open segment. -/
theorem closeSegment_eq (m : ℝ) (s : SegState) (e : ℝ) (n : String) (st : ℝ)
    (hn : s.curNote = some n) (hst : s.curStart = some st) :
    closeSegment m s e =
      { segments :=
          if m ≤ e - st ∧ 0 < s.curCents.length then
            s.segments ++ [⟨st, e, n, npMedian s.curCents, listMean s.curConfs⟩]
          else s.segments,
        curNote := none, curStart := none, curCents := [], curConfs := [],
        lastTime := s.lastTime } := by
  obtain ⟨segs, cn, cst, cc, cf, lt⟩ := s
  cases hn
  cases hst
  rfl

/-- C2 (amended): closing decisions are made relative to the *immediately
preceding frame*, not the last valid frame: an invalid frame at time `t`
closes the open segment iff `t - last_time > gap` where `last_time` is the
previous frame's timestamp (valid or invalid), and any segment emitted by
that close ends at that previous frame's timestamp. The end-of-stream close
likewise uses the final `last_time`, which may belong to an invalid frame
(see the counterexample). -/
theorem seg_close_times_use_prev_frame (a4 m g thr : ℝ) (s : SegState)
    (t f c lt st : ℝ) (n : String)
    (hn : s.curNote = some n) (hst : s.curStart = some st) (hl : s.lastTime = some lt)
    (hv : ¬ segValid f c thr) (hg : g < t - lt) :
    (segStep a4 m g thr s (t, f, c)).curNote = none ∧
    ∀ sg ∈ (segStep a4 m g thr s (t, f, c)).segments,
      sg ∈ s.segments ∨ sg.end_s = lt := by
  rw [segStep_invalid_close a4 m g thr s t f c lt n hv hn hl hg,
      closeSegment_eq m s lt n st hn hst]
  refine ⟨rfl, ?_⟩
  intro sg h
  simp only at h
  split at h
  · rcases List.mem_append.mp h with h' | h'
    · exact Or.inl h'
    · right
      simp only [List.mem_singleton] at h'
      rw [h']
  · exact Or.inl h

/-- C2 (witness): the amended close rule applied to a concrete in-segment
state hit by an invalid frame beyond the gap. -/
theorem seg_close_times_use_prev_frame_witness :
    (segStep 440 1 2 (1/2) ⟨[], some "A4", some 0, [0], [1], some 5⟩ (10, 0, 0)).curNote
        = none ∧
    ∀ sg ∈ (segStep 440 1 2 (1/2) ⟨[], some "A4", some 0, [0], [1], some 5⟩
        (10, 0, 0)).segments,
      sg ∈ (SegState.mk [] (some "A4") (some 0) [0] [1] (some 5)).segments ∨ sg.end_s = 5 :=
  seg_close_times_use_prev_frame 440 1 2 (1/2) _ 10 0 0 5 0 "A4" rfl rfl rfl
    (fun h => absurd h.1 (by norm_num)) (by norm_num)

/-- C3 (counterexample): two runs of "A4" frames (t = 0, 1 and t = 5, 6,
each of duration 1 = `minSegDur`) separated by invalid frames at
t = 2, 3, 4. The invalid stretch spans 4 > `gap` = 3/2 time units, yet each
frame arrives within `gap` of its immediate predecessor, so the code never
closes in between and returns a single merged segment `[0, 6]`, not the two
distinct segments the claim requires. -/
theorem seg_gap_merge_counterexample :
    (segment_notes
        [(0, 440, 1), (1, 440, 1), (2, 0, 0), (3, 0, 0), (4, 0, 0), (5, 440, 1), (6, 440, 1)]
        440 1 (3/2) (1/2)).map (fun sg => (sg.start_s, sg.end_s)) = [(0, 6)] := by
  have hv440 : segValid (440 : ℝ) 1 (1/2) := ⟨by norm_num, by norm_num⟩
  have hv0 : ¬ segValid (0 : ℝ) 0 (1/2) := by
    intro h
    exact absurd h.1 (by norm_num)
  have e1 : segStep 440 1 (3/2) (1/2) initSegState (0, 440, 1)
      = ⟨[], some "A4", some 0, [0], [1], some 0⟩ := by
    rw [segStep_open 440 1 (3/2) (1/2) initSegState 0 440 1 hv440 rfl,
        segLabel_440, cents_440]
    rfl
  have e2 : segStep 440 1 (3/2) (1/2) ⟨[], some "A4", some 0, [0], [1], some 0⟩ (1, 440, 1)
      = ⟨[], some "A4", some 0, [0, 0], [1, 1], some 1⟩ := by
    rw [segStep_same 440 1 (3/2) (1/2) _ 1 440 1 "A4" hv440 rfl segLabel_440, cents_440]
    rfl
  have e3 : segStep 440 1 (3/2) (1/2) ⟨[], some "A4", some 0, [0, 0], [1, 1], some 1⟩ (2, 0, 0)
      = ⟨[], some "A4", some 0, [0, 0], [1, 1], some 2⟩ := by
    rw [segStep_invalid_keep 440 1 (3/2) (1/2) _ 2 0 0 hv0
        (Or.inr (Or.inr (fun lt h => by cases h; norm_num)))]
  have e4 : segStep 440 1 (3/2) (1/2) ⟨[], some "A4", some 0, [0, 0], [1, 1], some 2⟩ (3, 0, 0)
      = ⟨[], some "A4", some 0, [0, 0], [1, 1], some 3⟩ := by
    rw [segStep_invalid_keep 440 1 (3/2) (1/2) _ 3 0 0 hv0
        (Or.inr (Or.inr (fun lt h => by cases h; norm_num)))]
  have e5 : segStep 440 1 (3/2) (1/2) ⟨[], some "A4", some 0, [0, 0], [1, 1], some 3⟩ (4, 0, 0)
      = ⟨[], some "A4", some 0, [0, 0], [1, 1], some 4⟩ := by
    rw [segStep_invalid_keep 440 1 (3/2) (1/2) _ 4 0 0 hv0
        (Or.inr (Or.inr (fun lt h => by cases h; norm_num)))]
  have e6 : segStep 440 1 (3/2) (1/2) ⟨[], some "A4", some 0, [0, 0], [1, 1], some 4⟩ (5, 440, 1)
      = ⟨[], some "A4", some 0, [0, 0, 0], [1, 1, 1], some 5⟩ := by
    rw [segStep_same 440 1 (3/2) (1/2) _ 5 440 1 "A4" hv440 rfl segLabel_440, cents_440]
    rfl
  have e7 : segStep 440 1 (3/2) (1/2) ⟨[], some "A4", some 0, [0, 0, 0], [1, 1, 1], some 5⟩
      (6, 440, 1)
      = ⟨[], some "A4", some 0, [0, 0, 0, 0], [1, 1, 1, 1], some 6⟩ := by
    rw [segStep_same 440 1 (3/2) (1/2) _ 6 440 1 "A4" hv440 rfl segLabel_440, cents_440]
    rfl
  unfold segment_notes
  rw [List.foldl_cons, e1, List.foldl_cons, e2, List.foldl_cons, e3, List.foldl_cons, e4,
      List.foldl_cons, e5, List.foldl_cons, e6, List.foldl_cons, e7, List.foldl_nil]
  norm_num [closeSegment]

/-- C3 (amended): the segmenter splits two same-note runs exactly when some
invalid frame arrives more than `gap` after its *immediately preceding*
frame (the stretch's total duration is irrelevant — see the counterexample):
such a frame closes the open segment and returns the machine to Idle, and
the next valid frame then opens a fresh, distinct segment starting at its
own timestamp. -/
theorem seg_gap_split_on_step (a4 m g thr : ℝ) (s : SegState)
    (t f c t' f' c' lt st : ℝ) (n : String)
    (hn : s.curNote = some n) (hst : s.curStart = some st) (hl : s.lastTime = some lt)
    (hv : ¬ segValid f c thr) (hg : g < t - lt) (hv' : segValid f' c' thr) :
    (segStep a4 m g thr s (t, f, c)).curNote = none ∧
    (segStep a4 m g thr (segStep a4 m g thr s (t, f, c)) (t', f', c')).curNote
        = some (segLabel f' a4) ∧
    (segStep a4 m g thr (segStep a4 m g thr s (t, f, c)) (t', f', c')).curStart
        = some t' := by
  have hcn : (segStep a4 m g thr s (t, f, c)).curNote = none := by
    rw [segStep_invalid_close a4 m g thr s t f c lt n hv hn hl hg,
        closeSegment_eq m s lt n st hn hst]
  refine ⟨hcn, ?_, ?_⟩ <;>
    rw [segStep_open a4 m g thr _ t' f' c' hv' hcn]

/-- C3 (witness): the amended split rule at a concrete in-segment state, an
invalid frame beyond the gap, and a following valid same-note frame. -/
theorem seg_gap_split_on_step_witness :
    (segStep 440 1 2 (1/2) ⟨[], some "A4", some 0, [0], [1], some 5⟩ (10, 0, 0)).curNote
        = none ∧
    (segStep 440 1 2 (1/2)
        (segStep 440 1 2 (1/2) ⟨[], some "A4", some 0, [0], [1], some 5⟩ (10, 0, 0))
        (11, 440, 1)).curNote = some (segLabel 440 440) ∧
    (segStep 440 1 2 (1/2)
        (segStep 440 1 2 (1/2) ⟨[], some "A4", some 0, [0], [1], some 5⟩ (10, 0, 0))
        (11, 440, 1)).curStart = some 11 :=
  seg_gap_split_on_step 440 1 2 (1/2) _ 10 0 0 11 440 1 5 0 "A4" rfl rfl rfl
    (fun h => absurd h.1 (by norm_num)) (by norm_num) ⟨by norm_num, by norm_num⟩

end MellyMell

namespace MellyMell

theorem sum_ge_mul_length (thr : ℝ) (l : List ℝ) (h : ∀ x ∈ l, thr ≤ x) :
    thr * l.length ≤ l.sum := by
  induction l with
  | nil => simp
  | cons a tl ih =>
      have ha := h a (List.mem_cons_self a tl)
      have htl := ih (fun x hx => h x (List.mem_cons_of_mem a hx))
      simp only [List.sum_cons, List.length_cons]
      push_cast
      nlinarith [htl, ha]

theorem listMean_ge (thr : ℝ) (l : List ℝ) (hne : l ≠ []) (h : ∀ x ∈ l, thr ≤ x) :
    thr ≤ listMean l := by
  unfold listMean
  rw [if_neg hne]
  have hlen : 0 < (l.length : ℝ) := by
    exact_mod_cast List.length_pos.mpr hne
  rw [le_div_iff₀ hlen]
  exact sum_ge_mul_length thr l h

/-- Invariant carried by the segmenter state: emitted segments have mean
confidence at least the threshold, the accumulated confidences all passed
the gate, and cents/confidence lists grow in lockstep. -/
def SegInv (thr : ℝ) (s : SegState) : Prop :=
  (∀ sg ∈ s.segments, thr ≤ sg.mean_confidence) ∧
  (∀ x ∈ s.curConfs, thr ≤ x) ∧
  s.curCents.length = s.curConfs.length

theorem closeSegment_inv (thr m e : ℝ) (s : SegState) (h : SegInv thr s) :
    SegInv thr (closeSegment m s e) := by
  obtain ⟨hseg, hconf, hlen⟩ := h
  obtain ⟨segs, cn, cst, cc, cf, lt⟩ := s
  unfold closeSegment
  match cn, cst with
  | none, none => exact ⟨hseg, hconf, hlen⟩
  | none, some st => exact ⟨hseg, hconf, hlen⟩
  | some n, none => exact ⟨hseg, hconf, hlen⟩
  | some n, some st =>
      refine ⟨?_, by simp, by simp⟩
      intro sg hsg
      simp only at hsg hseg hconf hlen
      split at hsg
      · rename_i hcond
        rcases List.mem_append.mp hsg with h' | h'
        · exact hseg sg h'
        · simp only [List.mem_singleton] at h'
          subst h'
          have hne : cf ≠ [] := by
            intro hcf
            have h2 := hcond.2
            rw [hcf] at hlen
            simp only [List.length_nil] at hlen
            omega
          exact listMean_ge thr cf hne hconf
      · exact hseg sg hsg

theorem segStep_inv (thr a4 m g : ℝ) (s : SegState) (fr : ℝ × ℝ × ℝ)
    (h : SegInv thr s) : SegInv thr (segStep a4 m g thr s fr) := by
  obtain ⟨t, f, c⟩ := fr
  by_cases hv : segValid f c thr
  · cases hcn : s.curNote with
    | none =>
        rw [segStep_open a4 m g thr s t f c hv hcn]
        refine ⟨h.1, ?_, by simp⟩
        intro x hx
        simp only [List.mem_singleton] at hx
        subst hx
        exact hv.2
    | some n =>
        by_cases hlbl : segLabel f a4 = n
        · rw [segStep_same a4 m g thr s t f c n hv hcn hlbl]
          refine ⟨h.1, ?_, by simp [h.2.2]⟩
          intro x hx
          rcases List.mem_append.mp hx with h' | h'
          · exact h.2.1 x h'
          · simp only [List.mem_singleton] at h'
            subst h'
            exact hv.2
        · rw [segStep_change a4 m g thr s t f c n hv hcn hlbl]
          have hc := closeSegment_inv thr m (s.lastTime.getD t) s h
          refine ⟨hc.1, ?_, by simp⟩
          intro x hx
          simp only [List.mem_singleton] at hx
          subst hx
          exact hv.2
  · cases hcn : s.curNote with
    | none =>
        rw [segStep_invalid_keep a4 m g thr s t f c hv (Or.inl hcn)]
        exact ⟨h.1, h.2.1, h.2.2⟩
    | some n =>
        cases hlt : s.lastTime with
        | none =>
            rw [segStep_invalid_keep a4 m g thr s t f c hv (Or.inr (Or.inl hlt))]
            exact ⟨h.1, h.2.1, h.2.2⟩
        | some lt =>
            by_cases hg : g < t - lt
            · rw [segStep_invalid_close a4 m g thr s t f c lt n hv hcn hlt hg]
              have hc := closeSegment_inv thr m lt s h
              exact ⟨hc.1, hc.2.1, hc.2.2⟩
            · rw [segStep_invalid_keep a4 m g thr s t f c hv
                  (Or.inr (Or.inr (fun lt' h' => by
                    rw [hlt] at h'
                    cases h'
                    linarith)))]
              exact ⟨h.1, h.2.1, h.2.2⟩

/-- C10: every `NoteSegment` emitted by the segmenter has
`mean_confidence ≥ conf_threshold`, because its confidence statistics are
accumulated exclusively from frames that passed the validity test
`conf ≥ conf_threshold` (stronger than the spec's `[0, 1]` range). -/
theorem seg_mean_confidence_ge_threshold (frames : List (ℝ × ℝ × ℝ))
    (a4 m g thr : ℝ) :
    ∀ sg ∈ segment_notes frames a4 m g thr, thr ≤ sg.mean_confidence := by
  have hstep : ∀ (l : List (ℝ × ℝ × ℝ)) (s : SegState), SegInv thr s →
      SegInv thr (l.foldl (segStep a4 m g thr) s) := by
    intro l
    induction l with
    | nil => exact fun s hs => hs
    | cons fr tl ih => exact fun s hs => ih _ (segStep_inv thr a4 m g s fr hs)
  have hfold : SegInv thr (frames.foldl (segStep a4 m g thr) initSegState) :=
    hstep frames initSegState
      ⟨fun sg hsg => absurd hsg (List.not_mem_nil sg),
       fun x hx => absurd hx (List.not_mem_nil x), rfl⟩
  unfold segment_notes
  dsimp only
  split
  · exact fun sg hsg => (closeSegment_inv thr m _ _ hfold).1 sg hsg
  · exact hfold.1

end MellyMell

namespace MellyMell

theorem seg_eval_two :
    segment_notes [(0, 440, 1), (1, 440, 1)] 440 1 (3/2) (1/2)
      = [⟨0, 1, "A4", npMedian [0, 0], listMean [1, 1]⟩] := by
  have hv440 : segValid (440 : ℝ) 1 (1/2) := ⟨by norm_num, by norm_num⟩
  have e1 : segStep 440 1 (3/2) (1/2) initSegState (0, 440, 1)
      = ⟨[], some "A4", some 0, [0], [1], some 0⟩ := by
    rw [segStep_open 440 1 (3/2) (1/2) initSegState 0 440 1 hv440 rfl,
        segLabel_440, cents_440]
    rfl
  have e2 : segStep 440 1 (3/2) (1/2) ⟨[], some "A4", some 0, [0], [1], some 0⟩ (1, 440, 1)
      = ⟨[], some "A4", some 0, [0, 0], [1, 1], some 1⟩ := by
    rw [segStep_same 440 1 (3/2) (1/2) _ 1 440 1 "A4" hv440 rfl segLabel_440, cents_440]
    rfl
  unfold segment_notes
  rw [List.foldl_cons, e1, List.foldl_cons, e2, List.foldl_nil]
  norm_num [closeSegment]

/-- C10 (witness): the mean-confidence bound applied to the one segment
produced by two valid "A4" frames of confidence 1 at threshold 1/2. -/
theorem seg_mean_confidence_ge_threshold_witness :
    (1/2 : ℝ) ≤ (NoteSegment.mk 0 1 "A4" (npMedian [0, 0]) (listMean [1, 1])).mean_confidence :=
  seg_mean_confidence_ge_threshold [(0, 440, 1), (1, 440, 1)] 440 1 (3/2) (1/2) _
    (by rw [seg_eval_two]; exact List.mem_singleton.mpr rfl)

/-- C8: a frame rejected by the gate (non-positive frequency — the real
model's version of "non-finite or non-positive" — or confidence below the
threshold) contributes to nothing: the live smoother emits "no pitch" and
returns its state (history and shownNote) exactly unchanged, and the
segmenter appends no cents or confidence entry for the frame — its
accumulator lists are either untouched or reset to `[]` by a gap close,
never extended. -/
theorem rejected_frame_contributes_nothing (a4 confThr hys : ℝ) (w : ℕ)
    (s : LiveState) (f conf : ℝ) (hrej : ¬ liveAccept f conf confThr)
    (m g : ℝ) (ss : SegState) (t fc cc : ℝ) (hv : ¬ segValid fc cc confThr) :
    liveStep a4 confThr hys w s f conf = (s, LiveOut.noPitch) ∧
    ((segStep a4 m g confThr ss (t, fc, cc)).curCents = ss.curCents ∧
      (segStep a4 m g confThr ss (t, fc, cc)).curConfs = ss.curConfs ∨
     (segStep a4 m g confThr ss (t, fc, cc)).curCents = [] ∧
      (segStep a4 m g confThr ss (t, fc, cc)).curConfs = []) := by
  constructor
  · unfold liveStep
    rw [if_neg hrej]
  · obtain ⟨segs, cn, cst, cc', cf, lt⟩ := ss
    simp only [segStep, if_neg hv]
    match cn, lt with
    | none, none => exact Or.inl ⟨rfl, rfl⟩
    | none, some lt0 => exact Or.inl ⟨rfl, rfl⟩
    | some n, none => exact Or.inl ⟨rfl, rfl⟩
    | some n, some lt0 =>
        dsimp only
        by_cases hg : g < t - lt0
        · rw [if_pos hg]
          unfold closeSegment
          cases cst with
          | none => exact Or.inl ⟨rfl, rfl⟩
          | some st => exact Or.inr ⟨rfl, rfl⟩
        · rw [if_neg hg]
          exact Or.inl ⟨rfl, rfl⟩

/-- C8 (witness): the gate applied to a concrete rejected frame (confidence
0 below threshold 1/2) against concrete live and segmenter states. -/
theorem rejected_frame_contributes_nothing_witness :
    liveStep 440 (1/2) 10 5 ⟨[440], some "A04"⟩ 440 0 = (⟨[440], some "A04"⟩, LiveOut.noPitch) ∧
    ((segStep 440 1 (3/2) (1/2) ⟨[], some "A4", some 0, [0], [1], some 0⟩
        (1, 440, 0)).curCents = [0] ∧
      (segStep 440 1 (3/2) (1/2) ⟨[], some "A4", some 0, [0], [1], some 0⟩
        (1, 440, 0)).curConfs = [1] ∨
     (segStep 440 1 (3/2) (1/2) ⟨[], some "A4", some 0, [0], [1], some 0⟩
        (1, 440, 0)).curCents = [] ∧
      (segStep 440 1 (3/2) (1/2) ⟨[], some "A4", some 0, [0], [1], some 0⟩
        (1, 440, 0)).curConfs = []) :=
  rejected_frame_contributes_nothing 440 (1/2) 10 5 ⟨[440], some "A04"⟩ 440 0
    (fun h => absurd h.2 (by norm_num)) 1 (3/2)
    ⟨[], some "A4", some 0, [0], [1], some 0⟩ 1 440 0
    (fun h => absurd h.2 (by norm_num))

end MellyMell

namespace MellyMell

theorem noteKey_440 : noteKey 440 440 = "A04" := by
  unfold noteKey
  rw [hz_to_note_440]
  with_unfolding_all decide

theorem note_to_hz_A4 : note_to_hz "A" 4 440 = 440 := by
  have h9 : NOTE_NAMES.indexOf "A" = 9 := by decide
  unfold note_to_hz midi_to_hz
  rw [h9]
  norm_num

theorem hz_to_note_boundary :
    hz_to_note (440 * (2 : ℝ) ^ ((51 : ℝ)/1200)) 440 = ("A#", 4, -49) := by
  have hm : hz_to_midi (440 * (2 : ℝ) ^ ((51 : ℝ)/1200)) 440 = 6951/100 := by
    rw [hz_to_midi_rpow 440 _ (by norm_num)]
    norm_num
  have hfl : ⌊(6951/100 : ℝ)⌋ = 69 := by
    rw [Int.floor_eq_iff] <;> norm_num
  have hrnd : pyRoundR (6951/100 : ℝ) = 70 := by
    unfold pyRoundR
    rw [hfl, if_neg (by norm_num), round_eq]
    rw [show (6951/100 : ℝ) + 1/2 = 7001/100 by norm_num]
    rw [Int.floor_eq_iff] <;> norm_num
  rw [Prod.ext_iff, Prod.ext_iff]
  refine ⟨?_, ?_, ?_⟩
  · rw [hz_to_note_name, hm]
    simp only [midi_to_note, hrnd]
    rfl
  · rw [hz_to_note_octave, hm]
    simp only [midi_to_note, hrnd]
    rfl
  · rw [hz_to_note_cents, hm, hrnd]
    norm_num

theorem noteKey_boundary : noteKey (440 * (2 : ℝ) ^ ((51 : ℝ)/1200)) 440 = "A#04" := by
  unfold noteKey
  rw [hz_to_note_boundary]
  with_unfolding_all decide

theorem centsDelta_boundary :
    centsDelta (440 * (2 : ℝ) ^ ((51 : ℝ)/1200)) 440 = 51 := by
  unfold centsDelta
  rw [mul_div_cancel_left₀ _ (by norm_num : (440 : ℝ) ≠ 0),
      Real.logb_rpow (by norm_num) (by norm_num)]
  norm_num

/-- On an accepted frame with a differing candidate label, the new shown
note is governed by the hysteresis comparison against the previous shown
note's center. -/
theorem liveStep_shown_update (a4 confThr hys : ℝ) (w : ℕ)
    (s : LiveState) (f conf : ℝ) (sn : String)
    (hs : s.shown = some sn) (hacc : liveAccept f conf confThr)
    (hne : liveCand a4 w s f ≠ sn) :
    (liveStep a4 confThr hys w s f conf).1.shown =
      some (if |centsDelta (liveFmed w s f)
                  (note_to_hz (parseName sn) (parseOct sn) a4)| < hys
            then sn else liveCand a4 w s f) := by
  unfold liveStep
  rw [if_pos hacc, hs]
  dsimp only
  rw [if_pos hne]

/-- C4 (amended): once `shownNote` is set, an accepted frame whose candidate
label differs switches the display exactly when the absolute cents offset
of the median frequency from the *previous* shown note's center
(`noteToHz(shownNote, a4)`) reaches `hysteresisCents`. Because a differing
candidate always lies more than 50 cents from the previous center, with the
default `hysteresisCents = 10` (indeed any value ≤ 50) every boundary
crossing switches immediately — oscillating past the boundary by *less*
than `hysteresisCents` still toggles `shownNote` (see the counterexample),
contrary to the claim's first half. -/
theorem live_switch_characterization (a4 confThr hys : ℝ) (w : ℕ)
    (s : LiveState) (f conf : ℝ) (sn : String)
    (hs : s.shown = some sn) (hacc : liveAccept f conf confThr)
    (hne : liveCand a4 w s f ≠ sn) :
    (liveStep a4 confThr hys w s f conf).1.shown =
      some (if |centsDelta (liveFmed w s f)
                  (note_to_hz (parseName sn) (parseOct sn) a4)| < hys
            then sn else liveCand a4 w s f) :=
  liveStep_shown_update a4 confThr hys w s f conf sn hs hacc hne

/-- C4 (witness): the switch characterisation at a concrete state: shown
note "A04", accepted frame at 880 Hz (candidate "A05"), hysteresis 100
cents; the offset from the old center is 1200 cents, so the display
switches. -/
theorem live_switch_characterization_witness :
    (liveStep 440 (1/2) 100 1 ⟨[], some "A04"⟩ 880 1).1.shown =
      some (if |centsDelta (liveFmed 1 ⟨[], some "A04"⟩ 880)
                  (note_to_hz (parseName "A04") (parseOct "A04") 440)| < 100
            then "A04" else liveCand 440 1 ⟨[], some "A04"⟩ 880) := by
  have h880 : hz_to_note (880 : ℝ) 440 = ("A", 5, 0) := by
    have hm : hz_to_midi (880 : ℝ) 440 = ((81 : ℤ) : ℝ) := by
      have h1 : (880 : ℝ) = 440 * (2 : ℝ) ^ ((1 : ℝ)) := by
        rw [Real.rpow_one]
        norm_num
      rw [h1, hz_to_midi_rpow 440 1 (by norm_num)]
      norm_num
    rw [Prod.ext_iff, Prod.ext_iff]
    refine ⟨?_, ?_, ?_⟩
    · rw [hz_to_note_name, hm]
      simp only [midi_to_note, pyRoundR_intCast]
      rfl
    · rw [hz_to_note_octave, hm]
      simp only [midi_to_note, pyRoundR_intCast]
      rfl
    · rw [hz_to_note_cents, hm, pyRoundR_intCast]
      ring
  have hcand : liveCand 440 1 ⟨[], some "A04"⟩ 880 = "A05" := by
    unfold liveCand
    have hf : liveFmed 1 ⟨[], some "A04"⟩ (880 : ℝ) = 880 := rfl
    rw [hf]
    unfold noteKey
    rw [h880]
    with_unfolding_all decide
  exact live_switch_characterization 440 (1/2) 100 1 ⟨[], some "A04"⟩ 880 1 "A04" rfl
    ⟨by norm_num, by norm_num⟩
    (by rw [hcand]; with_unfolding_all decide)

/-- C4 (counterexample): with the default hysteresis of 10 cents and median
window 1, a first accepted frame at 440 Hz sets `shownNote = "A04"`; a
second accepted frame only 51 cents above A4 — i.e. just **1 cent past**
the A4/A#4 boundary, far less than `hysteresisCents` past it — already
flips the display to "A#04", because the code compares the offset from the
previous center (51 cents) against the 10-cent threshold. The claim's
"oscillating across a note boundary by less than hysteresisCents never
changes shownNote" is false. -/
theorem live_hysteresis_counterexample :
    (liveStep 440 (1/2) 10 1
        (liveStep 440 (1/2) 10 1 ⟨[], none⟩ 440 1).1
        (440 * (2 : ℝ) ^ ((51 : ℝ)/1200)) 1).1.shown = some "A#04" := by
  have hs1 : (liveStep 440 (1/2) 10 1 ⟨[], none⟩ 440 1).1 = ⟨[440], some "A04"⟩ := by
    have hacc1 : liveAccept (440 : ℝ) 1 (1/2) := ⟨by norm_num, by norm_num⟩
    unfold liveStep
    rw [if_pos hacc1]
    dsimp only
    have hc : liveCand 440 1 ⟨[], none⟩ 440 = "A04" := by
      unfold liveCand
      have hf : liveFmed 1 ⟨[], none⟩ (440 : ℝ) = 440 := rfl
      rw [hf, noteKey_440]
    rw [hc]
    rfl
  rw [hs1]
  have hacc2 : liveAccept (440 * (2 : ℝ) ^ ((51 : ℝ)/1200)) 1 (1/2) := by
    constructor
    · positivity
    · norm_num
  have hcand2 : liveCand 440 1 ⟨[440], some "A04"⟩ (440 * (2 : ℝ) ^ ((51 : ℝ)/1200))
      = "A#04" := by
    unfold liveCand
    have hf : liveFmed 1 ⟨[440], some "A04"⟩ (440 * (2 : ℝ) ^ ((51 : ℝ)/1200))
        = 440 * (2 : ℝ) ^ ((51 : ℝ)/1200) := rfl
    rw [hf, noteKey_boundary]
  have hfme : liveFmed 1 ⟨[440], some "A04"⟩ (440 * (2 : ℝ) ^ ((51 : ℝ)/1200))
      = 440 * (2 : ℝ) ^ ((51 : ℝ)/1200) := rfl
  rw [liveStep_shown_update 440 (1/2) 10 1 ⟨[440], some "A04"⟩ _ 1 "A04" rfl hacc2
    (by rw [hcand2]; with_unfolding_all decide)]
  rw [hcand2, hfme]
  rw [show parseName "A04" = "A" from by with_unfolding_all decide,
      show parseOct "A04" = 4 from by with_unfolding_all decide,
      note_to_hz_A4, centsDelta_boundary]
  rw [if_neg (by rw [abs_of_nonneg (by norm_num : (0:ℝ) ≤ 51)]; norm_num)]

end MellyMell
